import Mathlib

/-!
Shallow embedding of the elphmod core (work distributor, occupation models,
band ordering, diagram evaluator) together with proofs of the specification
claims about it.  Real-valued quantities of the source are modelled by
rationals; complex values by pairs of rationals; transcendental primitives
(`erf`, `exp`, `sqrt`, `pi`) by real numbers or abstract parameters where the
source defers to the math library.
-/

namespace Elphmod

/-- Boltzmann constant `kB = 8.61733e-5` (eV/K) from `diagrams.py`. -/
def kB : ℚ := 861733 / 10000000000

/-- Python 3 `round`: round half to even (banker's rounding), as applied by
`int(round(...))` in the source. -/
def pythonRound (x : ℚ) : ℤ :=
  let f := ⌊x⌋
  let r := x - f
  if r < 1/2 then f
  else if 1/2 < r then f + 1
  else if f % 2 = 0 then f else f + 1

/-- An occupation model: the particle distribution `f(x)` together with its
negative derivative `delta(x)`, the duck-typed `occupations` /
`occupations.delta` pair of `occupations.py`. -/
structure Occupations where
  f : ℚ → ℚ
  delta : ℚ → ℚ

/-! ### Complex arithmetic on pairs of rationals

The source works with NumPy complex numbers; here a complex value is a pair
`(re, im)` of rationals with the usual field operations. -/

/-- Complex addition. -/
def cadd (z w : ℚ × ℚ) : ℚ × ℚ := (z.1 + w.1, z.2 + w.2)

/-- Complex multiplication. -/
def cmul (z w : ℚ × ℚ) : ℚ × ℚ := (z.1 * w.1 - z.2 * w.2, z.1 * w.2 + z.2 * w.1)

/-- Complex conjugation. -/
def conj (z : ℚ × ℚ) : ℚ × ℚ := (z.1, -z.2)

/-- Squared magnitude of a complex value. -/
def normSq (z : ℚ × ℚ) : ℚ := z.1 ^ 2 + z.2 ^ 2

/-- Multiplication of a complex value by a real scalar. -/
def cmulr (a : ℚ) (z : ℚ × ℚ) : ℚ × ℚ := (a * z.1, a * z.2)

/-- Complex division `z / w = z * conj w / |w|^2`. -/
def cdiv (z w : ℚ × ℚ) : ℚ × ℚ :=
  ((z.1 * w.1 + z.2 * w.2) / (w.1 ^ 2 + w.2 ^ 2),
   (z.2 * w.1 - z.1 * w.2) / (w.1 ^ 2 + w.2 ^ 2))

/-! ### Work distributor (`MPI.py`) -/

/-- Source `MPI.distribute`: split `size` work units among `nprocs` workers.  Mirrors

    sizes[:] = size // comm.size
    sizes[:size % comm.size] += 1

with `nprocs = comm.size`; the array computed by the leader and broadcast is
the value every worker holds. -/
def distribute (size nprocs : ℕ) : List ℕ :=
  (List.range nprocs).map fun i => size / nprocs + if i < size % nprocs then 1 else 0

/-- Modelled from the spec: the `bounds=True` variant of `distribute` that
`diagrams.phonon_self_energy` calls is absent from the sources at hand (only
its caller is present); per the spec, `bounds` is the prefix-sum array of
`sizes`, of length `workerCount + 1`, giving each worker's half-open index
range. -/
def distributeBounds (size nprocs : ℕ) : List ℕ :=
  (List.range (nprocs + 1)).map fun r => ((distribute size nprocs).take r).sum

/-- The list of q indices iterated by worker `rank` in `phonon_self_energy`:
`range(*bounds[rank:rank + 2])`. -/
def workerQRange (size nprocs rank : ℕ) : List ℕ :=
  List.range' ((distributeBounds size nprocs).getD rank 0)
    ((distributeBounds size nprocs).getD (rank + 1) 0 -
      (distributeBounds size nprocs).getD rank 0)

/-! ### Status channel (`MPI.info`) and the MD driver's initialization checks -/

/-- Observable effects of one worker during `MPI.info`: the collective
rendezvous, a write to standard output, and process termination. -/
inductive Event : Type
  | barrier : Event
  | out : String → Event
  | exit : Event
deriving DecidableEq

/-- Source `MPI.info(message, error)` as the event trace of the worker with the given
rank: a barrier, then (on rank 0 only) the optional error marker and the
message, then (if `error`) `sys.exit()`. -/
def info (rank : ℕ) (message : String) (error : Bool) : List Event :=
  [Event.barrier]
    ++ (if rank = 0 then
          (if error then [Event.out "Error: "] else []) ++ [Event.out message]
        else [])
    ++ (if error then [Event.exit] else [])

/-- The strings written to standard output along a trace. -/
def outputs : List Event → List String
  | [] => []
  | Event.out s :: es => s :: outputs es
  | _ :: es => outputs es

/-- Source `md.Driver.__init__` configuration checks: with `rydberg` false, or with
`divide_mass` set on the coupling or the phonon model, the constructor reports
through `info(..., error=True)`; otherwise initialization proceeds (no status
events). -/
def driverInitEvents (rydberg divide_mass ph_divide_mass : Bool) (rank : ℕ) :
    List Event :=
  if ¬rydberg then
    info rank "Initialize el with rydberg=True!" true
  else if divide_mass || ph_divide_mass then
    info rank "Initialize ph and elph with divide_mass=False!" true
  else []

end Elphmod

namespace Elphmod

/-! ### Phonon self-energy (`diagrams.phonon_self_energy`)

Wavevectors are represented by their crystal fraction `q/(2π) ∈ [0, 1)`, so
the source's `q1 * scale` with `scale = nk/(2π)` becomes `q1 * nk`. -/

/-- Source expression `int(round(q * scale)) % nk`, on the fractional
representation. -/
def qIndex (nk : ℕ) (qc : ℚ) : ℤ :=
  pythonRound (qc * nk) % (nk : ℤ)

/-- The per-k-point factor `chi` of `phonon_self_energy`: the delta-function
limit `d = occupations.delta(x) / (-kT)` at the Γ point, and
`df / (de + i0)` (with `i0 = i·η`) elsewhere; `k + q` indexing wraps around
the `nk × nk` mesh as in the source's tile-and-slice. -/
def phonon_chi (nk : ℕ) (e : ℕ → ℕ → ℚ) (kT η : ℚ) (occ : Occupations)
    (q1 q2 k1 k2 : ℕ) : ℚ × ℚ :=
  if q1 = 0 ∧ q2 = 0 then (occ.delta (e k1 k2 / kT) / (-kT), 0)
  else
    let df := occ.f (e ((k1 + q1) % nk) ((k2 + q2) % nk) / kT)
      - occ.f (e k1 k2 / kT)
    let de := e ((k1 + q1) % nk) ((k2 + q2) % nk) - e k1 k2
    cdiv (df, 0) (de, η)

/-- One entry `Pi[iq, nu] = prefactor * sum(g2[iq, nu] * chi)` of the phonon
self-energy, exactly the value each worker stores into `my_Pi`. -/
def phonon_self_energy_entry (nk : ℕ) (e : ℕ → ℕ → ℚ) (g2 : ℕ → ℕ → ℕ → ℕ → ℚ)
    (T η : ℚ) (occ : Occupations) (q : ℕ → ℚ × ℚ) (iq nu : ℕ) : ℚ × ℚ :=
  let kT := kB * T
  let q1 := (qIndex nk (q iq).1).toNat
  let q2 := (qIndex nk (q iq).2).toNat
  cmulr (2 / (nk : ℚ) ^ 2)
    (∑ k1 ∈ Finset.range nk, ∑ k2 ∈ Finset.range nk,
      cmulr (g2 iq nu k1 k2) (phonon_chi nk e kT η occ q1 q2 k1 k2))

/-- Local block `my_Pi`: the entries computed locally by one worker, in (q, band) order,
over its half-open q range. -/
def my_Pi (nQ nb nprocs rank : ℕ) (entry : ℕ → ℕ → ℚ × ℚ) : List (ℚ × ℚ) :=
  (workerQRange nQ nprocs rank).flatMap fun iq =>
    (List.range nb).map fun nu => entry iq nu

/-- Source collective `comm.Allgatherv(my_Pi, (Pi, sizes * nb))`: the gathered flat array,
the concatenation of all workers' local blocks in rank order; after the
collective every worker holds this list. -/
def phonon_self_energy_gathered (nQ nb nprocs : ℕ)
    (entry : ℕ → ℕ → ℚ × ℚ) : List (ℚ × ℚ) :=
  (List.range nprocs).flatMap fun rank => my_Pi nQ nb nprocs rank entry

/-- The complete self-energy as a flat list ordered by (q-point, band):
the reference single-worker result. -/
def phonon_self_energy_seq (nQ nb : ℕ) (entry : ℕ → ℕ → ℚ × ℚ) :
    List (ℚ × ℚ) :=
  (List.range nQ).flatMap fun iq => (List.range nb).map fun nu => entry iq nu

/-- Source `diagrams.phonon_self_energy` run on `nprocs` workers: distribute the
q points, let each worker fill `my_Pi`, and all-gather. -/
def phonon_self_energy (nk : ℕ) (e : ℕ → ℕ → ℚ) (g2 : ℕ → ℕ → ℕ → ℕ → ℚ)
    (T η : ℚ) (occ : Occupations) (q : ℕ → ℚ × ℚ) (nQ nb nprocs : ℕ) :
    List (ℚ × ℚ) :=
  phonon_self_energy_gathered nQ nb nprocs
    (phonon_self_energy_entry nk e g2 T η occ q)

end Elphmod

namespace Elphmod

/-! ### Static susceptibility (`diagrams.susceptibility`) -/

/-- Source `diagrams.susceptibility`: the closure over the dispersion `e` on the
`nk × nk` mesh, smearing temperature `T`, broadening `eta`, and the occupation
model, evaluated at the wavevector with crystal fractions `q1, q2`
(the source's coordinates divided by `2π`). -/
def susceptibility (nk : ℕ) (e : ℕ → ℕ → ℚ) (T η : ℚ) (occ : Occupations)
    (q1 q2 : ℚ) : ℚ :=
  let kT := kB * T
  let d := (∑ k1 ∈ Finset.range nk, ∑ k2 ∈ Finset.range nk,
    occ.delta (e k1 k2 / kT)) / kT
  let Q1 := (qIndex nk q1).toNat
  let Q2 := (qIndex nk q2).toNat
  if Q1 = 0 ∧ Q2 = 0 then
    -(2 / (nk : ℚ) ^ 2) * d
  else
    (2 / (nk : ℚ) ^ 2) * ∑ k1 ∈ Finset.range nk, ∑ k2 ∈ Finset.range nk,
      (let df := occ.f (e ((k1 + Q1) % nk) ((k2 + Q2) % nk) / kT)
        - occ.f (e k1 k2 / kT)
      let de := e ((k1 + Q1) % nk) ((k2 + Q2) % nk) - e k1 k2
      df * de / (de * de + η ^ 2))

/-! ### Occupation models (`occupations.py`)

The Gaussian family needs the error function, an external math-library
primitive (`math.erf`); it enters as an explicit function parameter. -/

/-- Source `occupations.gauss`: the Gaussian step function `0.5 * (1 - erf(x))`. -/
noncomputable def gauss (erf : ℝ → ℝ) (x : ℝ) : ℝ := 0.5 * (1 - erf x)

/-- Source `occupations.gauss_delta`: `exp(-x * x) / sqrt(pi)`. -/
noncomputable def gauss_delta (x : ℝ) : ℝ :=
  Real.exp (-x * x) / Real.sqrt Real.pi

/-- Loop state of `methfessel_paxton_general`: step value `S`, delta value
`D`, the two running Hermite polynomials `H` and `h`, the coefficient `a`,
and the Hermite degree counter `m`. -/
structure MPState where
  S : ℝ
  D : ℝ
  H : ℝ
  h : ℝ
  a : ℝ
  m : ℕ

/-- One iteration of the `for n in range(1, N + 1)` loop of
`methfessel_paxton_general`. -/
noncomputable def mpStep (x : ℝ) (st : MPState) (n : ℕ) : MPState :=
  let H1 := 2 * x * st.h - 2 * (st.m : ℝ) * st.H
  let m1 := st.m + 1
  let h1 := 2 * x * H1 - 2 * (m1 : ℝ) * st.h
  let m2 := m1 + 1
  let a1 := st.a / (-4 * (n : ℝ))
  { S := st.S + a1 * H1, D := st.D + a1 * h1, H := H1, h := h1, a := a1, m := m2 }

/-- Source `occupations.methfessel_paxton_general`: the Hermite-polynomial expansion
of order `N` around the Gaussian base case, returning the pair `(S, D)` of
step function and its negative derivative. -/
noncomputable def methfessel_paxton_general (erf : ℝ → ℝ) (x : ℝ) (N : ℕ) :
    ℝ × ℝ :=
  let st0 : MPState :=
    { S := gauss erf x, D := gauss_delta x, H := 0, h := gauss_delta x,
      a := 1, m := 0 }
  let st := (List.range' 1 N).foldl (mpStep x) st0
  (st.S, st.D)

/-! ### Band ordering (`dispersion.band_order`) -/

/-- Python's `max(range(bands), key=key)`: the first index attaining the
maximal key (later candidates replace the incumbent only on a strictly
greater key). -/
def argmaxKey (key : ℕ → ℚ) (bands : ℕ) : ℕ :=
  (List.range bands).foldl (fun acc j => if key acc < key j then j else acc) 0

/-- The matching weight `np.absolute(np.dot(V[n0, :, a], V[n, :, j].conj()))`
compared through its square (the squared magnitude induces the same order as
the magnitude, hence the same maximiser). -/
def overlap (V : ℕ → ℕ → ℕ → ℚ × ℚ) (bands n0 a n j : ℕ) : ℚ :=
  normSq (∑ c ∈ Finset.range bands, cmul (V n0 c a) (conj (V n c j)))

/-- Source condition `np.all(np.absolute(np.diff(v[n])) > 1e-10)`: every consecutive
eigenvalue gap at point `n` exceeds the degeneracy threshold. -/
def gapCondB (v : ℕ → ℕ → ℚ) (bands n : ℕ) : Bool :=
  (List.range (bands - 1)).all fun i =>
    decide (1 / 10000000000 < |v n (i + 1) - v n i|)

/-- The main loop of `band_order` after processing path points `0 .. n`:
returns the current anchor `n0` and the rows `o[0], ..., o[n]` computed so
far.  Point `0` gets the identity row; each later point matches every slot to
the candidate with maximal eigenvector overlap against the anchor, and the
anchor advances to the current point exactly when `gapCondB` holds there. -/
def bandOrderRows (v : ℕ → ℕ → ℚ) (V : ℕ → ℕ → ℕ → ℚ × ℚ) (bands : ℕ) :
    ℕ → ℕ × List (List ℕ)
  | 0 => (0, [List.range bands])
  | n + 1 =>
      let st := bandOrderRows v V bands n
      let anchorRow := st.2.getD st.1 []
      let row := (List.range bands).map fun i =>
        argmaxKey (fun j => overlap V bands st.1 (anchorRow.getD i 0) (n + 1) j)
          bands
      ((if gapCondB v bands (n + 1) then n + 1 else st.1), st.2 ++ [row])

/-- Source `dispersion.band_order`: the matching loop over all `points` path points
followed, when `by_mean` is set, by the global relabeling
`o[:, sorted(range(bands), key=lambda i: v[:, o[:, i]].sum())]`
(a stable ascending sort of the slots by eigenvalue sum along the path). -/
def band_order (v : ℕ → ℕ → ℚ) (V : ℕ → ℕ → ℕ → ℚ × ℚ)
    (points bands : ℕ) (by_mean : Bool := true) : List (List ℕ) :=
  let rows := (bandOrderRows v V bands (points - 1)).2
  if by_mean then
    let key : ℕ → ℚ := fun i =>
      ∑ n ∈ Finset.range points, v n ((rows.getD n []).getD i 0)
    let perm := List.insertionSort (fun i j => key i ≤ key j) (List.range bands)
    rows.map fun row => perm.map fun p => row.getD p 0
  else rows

end Elphmod

namespace Elphmod

/-! ### Helper lemmas about the distributor -/

lemma distribute_length (size nprocs : ℕ) : (distribute size nprocs).length = nprocs := by
  simp [distribute]

lemma distribute_getD (size nprocs i : ℕ) (hi : i < nprocs) :
    (distribute size nprocs).getD i 0
      = size / nprocs + if i < size % nprocs then 1 else 0 := by
  simp [distribute, List.getD, List.getElem?_map, List.getElem?_range hi]

lemma sum_ite_lt_range (w m : ℕ) :
    (∑ i ∈ Finset.range w, if i < m then 1 else 0) = min m w := by
  induction w with
  | zero => simp
  | succ w ih =>
      rw [Finset.sum_range_succ, ih]
      rcases Nat.lt_or_ge w m with h | h
      · simp [h]; omega
      · simp [Nat.not_lt.mpr h]; omega

lemma list_sum_map_range (w : ℕ) (f : ℕ → ℕ) :
    ((List.range w).map f).sum = ∑ i ∈ Finset.range w, f i := by
  induction w with
  | zero => simp
  | succ w ih => rw [List.range_succ, Finset.sum_range_succ]; simp [ih]

lemma distribute_sum (size nprocs : ℕ) (h : 1 ≤ nprocs) :
    (distribute size nprocs).sum = size := by
  rw [distribute, list_sum_map_range]
  rw [Finset.sum_add_distrib, Finset.sum_const, sum_ite_lt_range]
  have hmod : size % nprocs < nprocs := Nat.mod_lt _ h
  rw [Nat.min_eq_left hmod.le]
  simpa [Finset.card_range, Nat.mul_comm] using Nat.div_add_mod size nprocs

lemma distributeBounds_getD (size nprocs r : ℕ) (hr : r ≤ nprocs) :
    (distributeBounds size nprocs).getD r 0 = ((distribute size nprocs).take r).sum := by
  have hr' : r < nprocs + 1 := Nat.lt_succ_of_le hr
  simp [distributeBounds, List.getD, List.getElem?_map, List.getElem?_range hr']

lemma take_succ_sum (l : List ℕ) (r : ℕ) (hr : r < l.length) :
    (l.take (r + 1)).sum = (l.take r).sum + l.getD r 0 := by
  rw [List.take_succ, List.sum_append]
  simp [List.getD, List.getElem?_eq_getElem hr]

lemma distributeBounds_step (size nprocs r : ℕ) (hr : r < nprocs) :
    (distributeBounds size nprocs).getD (r + 1) 0
      = (distributeBounds size nprocs).getD r 0 + (distribute size nprocs).getD r 0 := by
  rw [distributeBounds_getD size nprocs (r + 1) (Nat.succ_le_of_lt hr),
    distributeBounds_getD size nprocs r hr.le]
  exact take_succ_sum _ _ (by simpa [distribute_length] using hr)

lemma workerQRange_eq (size nprocs r : ℕ) (hr : r < nprocs) :
    workerQRange size nprocs r
      = List.range' ((distributeBounds size nprocs).getD r 0)
          ((distribute size nprocs).getD r 0) := by
  rw [workerQRange, distributeBounds_step size nprocs r hr]
  congr 1
  omega

end Elphmod


namespace Elphmod

/-! ### Partition lemmas -/

lemma flatMap_congr_mem {α β : Type} (l : List α) (f g : α → List β)
    (h : ∀ a ∈ l, f a = g a) : l.flatMap f = l.flatMap g := by
  induction l with
  | nil => rfl
  | cons a t ih =>
      rw [List.flatMap_cons, List.flatMap_cons, h a (by simp),
        ih fun b hb => h b (by simp [hb])]

lemma flatMap_range'_take_sum (l : List ℕ) (a : ℕ) :
    (List.range l.length).flatMap
        (fun r => List.range' (a + (l.take r).sum) (l.getD r 0))
      = List.range' a l.sum := by
  induction l generalizing a with
  | nil => simp
  | cons s t ih =>
      rw [List.length_cons, List.range_succ_eq_map, List.flatMap_cons,
        List.flatMap_map]
      have hrest : (List.range t.length).flatMap
          (fun r => List.range' (a + ((s :: t).take (r + 1)).sum)
            ((s :: t).getD (r + 1) 0))
          = List.range' (a + s) t.sum := by
        rw [← ih (a + s)]
        refine flatMap_congr_mem _ _ _ fun r _ => ?_
        simp [List.take_cons, Nat.add_assoc]
      simp only [Function.comp, Nat.succ_eq_add_one]
      rw [hrest]
      have happ := List.range'_append a s t.sum 1
      simpa [Nat.add_comm] using happ

lemma flatMap_workerQRange (nQ nprocs : ℕ) (h : 1 ≤ nprocs) :
    (List.range nprocs).flatMap (fun r => workerQRange nQ nprocs r)
      = List.range nQ := by
  have h1 : (List.range nprocs).flatMap (fun r => workerQRange nQ nprocs r)
      = (List.range nprocs).flatMap
          (fun r => List.range' (0 + ((distribute nQ nprocs).take r).sum)
            ((distribute nQ nprocs).getD r 0)) := by
    refine flatMap_congr_mem _ _ _ fun r hr => ?_
    have hr' : r < nprocs := by simpa using hr
    rw [workerQRange_eq nQ nprocs r hr',
      distributeBounds_getD nQ nprocs r hr'.le, Nat.zero_add]
  rw [h1]
  have h2 := flatMap_range'_take_sum (distribute nQ nprocs) 0
  rw [distribute_length] at h2
  rw [h2, distribute_sum nQ nprocs h, List.range_eq_range']

lemma gathered_eq_seq (nQ nb nprocs : ℕ) (entry : ℕ → ℕ → ℚ × ℚ)
    (h : 1 ≤ nprocs) :
    phonon_self_energy_gathered nQ nb nprocs entry
      = phonon_self_energy_seq nQ nb entry := by
  rw [phonon_self_energy_gathered, phonon_self_energy_seq,
    ← flatMap_workerQRange nQ nprocs h, List.flatMap_assoc]
  rfl

lemma flatMap_blocks_getElem? {α : Type} (f : ℕ → ℕ → α) (nb : ℕ) :
    ∀ (m s iq nu : ℕ), iq < m → nu < nb →
      ((List.range' s m).flatMap fun i => (List.range nb).map (f i))[iq * nb + nu]?
        = some (f (s + iq) nu) := by
  intro m
  induction m with
  | zero => intro s iq nu h; omega
  | succ m ih =>
      intro s iq nu hiq hnu
      rw [List.range'_succ, List.flatMap_cons]
      rcases Nat.eq_zero_or_pos iq with hz | hp
      · subst hz
        rw [List.getElem?_append_left (by simpa using hnu)]
        simp [List.getElem?_map, List.getElem?_range hnu]
      · obtain ⟨j, rfl⟩ : ∃ j, iq = j + 1 := ⟨iq - 1, by omega⟩
        have hlen : ((List.range nb).map (f s)).length = nb := by simp
        rw [List.getElem?_append_right (by rw [hlen]; nlinarith)]
        rw [hlen]
        have hidx : (j + 1) * nb + nu - nb = j * nb + nu := by ring_nf; omega
        rw [hidx, ih (s + 1) j nu (by omega) hnu]
        congr 2
        omega

lemma seq_getElem? (nQ nb : ℕ) (entry : ℕ → ℕ → ℚ × ℚ) (iq nu : ℕ)
    (hiq : iq < nQ) (hnu : nu < nb) :
    (phonon_self_energy_seq nQ nb entry)[iq * nb + nu]? = some (entry iq nu) := by
  rw [phonon_self_energy_seq, List.range_eq_range']
  simpa using flatMap_blocks_getElem? entry nb nQ 0 iq nu hiq hnu

end Elphmod


namespace Elphmod

/-! ### Band-ordering lemmas -/

lemma bandOrderRows_fst_succ (v : ℕ → ℕ → ℚ) (V : ℕ → ℕ → ℕ → ℚ × ℚ)
    (bands n : ℕ) :
    (bandOrderRows v V bands (n + 1)).1
      = if gapCondB v bands (n + 1) then n + 1
        else (bandOrderRows v V bands n).1 := rfl

lemma bandOrderRows_fst_le (v : ℕ → ℕ → ℚ) (V : ℕ → ℕ → ℕ → ℚ × ℚ)
    (bands : ℕ) : ∀ n, (bandOrderRows v V bands n).1 ≤ n := by
  intro n
  induction n with
  | zero => simp [bandOrderRows]
  | succ n ih =>
      rw [bandOrderRows_fst_succ]
      split
      · exact Nat.le_refl _
      · exact Nat.le_trans ih (Nat.le_succ n)

end Elphmod

namespace Elphmod

/-- C6: in band ordering, after the slot matching at path position `n ≥ 1`
the anchor advances to point `n` exactly when every consecutive eigenvalue
gap at point `n` exceeds `1e-10` in absolute value; otherwise the anchor of
the previous point is retained. -/
theorem band_order_anchor_advance (v : ℕ → ℕ → ℚ) (V : ℕ → ℕ → ℕ → ℚ × ℚ)
    (bands n : ℕ) :
    (bandOrderRows v V bands (n + 1)).1
        = (if gapCondB v bands (n + 1) then n + 1
           else (bandOrderRows v V bands n).1)
      ∧ (gapCondB v bands (n + 1) = true
          ↔ (bandOrderRows v V bands (n + 1)).1 = n + 1) := by
  refine ⟨bandOrderRows_fst_succ v V bands n, ?_, ?_⟩
  · intro h
    rw [bandOrderRows_fst_succ, if_pos h]
  · intro h
    by_contra hg
    rw [bandOrderRows_fst_succ, if_neg (by simpa using hg)] at h
    have := bandOrderRows_fst_le v V bands n
    omega

end Elphmod

namespace Elphmod

lemma range_two : List.range 2 = [0, 1] := rfl

/-- C7 counterexample: a single mesh point with descending eigenvalues, for
which the final relabeling by ascending eigenvalue sum returns `[1, 0]`, not
the identity. -/
theorem band_order_single_point_counterexample :
    band_order (fun _ i => 1 - (i : ℚ)) (fun _ _ _ => ((0 : ℚ), (0 : ℚ)))
        1 2 true = [[1, 0]]
    ∧ band_order (fun _ i => 1 - (i : ℚ)) (fun _ _ _ => ((0 : ℚ), (0 : ℚ)))
        1 2 true ≠ [List.range 2] := by
  have h : band_order (fun _ i => 1 - (i : ℚ)) (fun _ _ _ => ((0 : ℚ), (0 : ℚ)))
      1 2 true = [[1, 0]] := by
    norm_num [band_order, bandOrderRows, List.insertionSort, List.orderedInsert,
      Finset.sum_range_one, List.getD, range_two]
  exact ⟨h, by rw [h]; decide⟩

end Elphmod

namespace Elphmod

lemma map_getD_range (bands : ℕ) :
    (List.range bands).map (fun p => (List.range bands)[p]?.getD 0)
      = List.range bands := by
  refine List.ext_getElem (by simp) ?_
  intro i h1 h2
  simp only [List.getElem_map, List.getElem_range]
  simp [List.getElem?_range (by simpa using h2)]

lemma insertionSort_range_of_mono (bands : ℕ) (key : ℕ → ℚ)
    (h : ∀ i j, i < j → j < bands → key i ≤ key j) :
    List.insertionSort (fun i j => key i ≤ key j) (List.range bands)
      = List.range bands := by
  apply List.Sorted.insertionSort_eq
  exact (List.pairwise_lt_range bands).imp_of_mem
    (fun {a b} ha hb hab => h a b hab (List.mem_range.mp hb))

/-- C7 (amended): band ordering on a single mesh point whose eigenvalues are
in nondecreasing order (as a Hermitian eigensolver produces them) returns the
identity permutation; for unsorted eigenvalues the final relabeling by
ascending eigenvalue sum may permute the slots. -/
theorem band_order_single_point_sorted (bands : ℕ) (v : ℕ → ℕ → ℚ)
    (V : ℕ → ℕ → ℕ → ℚ × ℚ) (h : ∀ i, i + 1 < bands → v 0 i ≤ v 0 (i + 1)) :
    band_order v V 1 bands true = [List.range bands] := by
  have mono : ∀ j, j < bands → ∀ i, i ≤ j → v 0 i ≤ v 0 j := by
    intro j
    induction j with
    | zero =>
        intro _ i hi
        have : i = 0 := Nat.le_zero.mp hi
        simp [this]
    | succ j ih =>
        intro hj i hi
        rcases Nat.lt_or_ge i (j + 1) with hlt | hge
        · exact le_trans (ih (by omega) i (by omega)) (h j hj)
        · have hij : i = j + 1 := by omega
          simp [hij]
  unfold band_order
  simp only [Nat.sub_self, bandOrderRows, if_pos]
  rw [show (List.insertionSort
      (fun i j =>
        (∑ n ∈ Finset.range 1, v n (([List.range bands].getD n []).getD i 0))
          ≤ ∑ n ∈ Finset.range 1, v n (([List.range bands].getD n []).getD j 0))
      (List.range bands)) = List.range bands from
    insertionSort_range_of_mono bands _ ?_]
  · simp [map_getD_range]
  · intro i j hij hj
    simp only [Finset.sum_range_one, List.getD_cons_zero]
    have hgi : (List.range bands).getD i 0 = i := by
      simp [List.getD, List.getElem?_range (by omega : i < bands)]
    have hgj : (List.range bands).getD j 0 = j := by
      simp [List.getD, List.getElem?_range hj]
    rw [hgi, hgj]
    exact mono j hj i hij.le

/-- C7 witness: a concrete single-point input with nondecreasing (constant)
eigenvalues on which band ordering returns the identity permutation. -/
theorem band_order_single_point_sorted_witness :
    band_order (fun _ _ => (0 : ℚ)) (fun _ _ _ => ((0 : ℚ), (0 : ℚ))) 1 2 true
      = [List.range 2] :=
  band_order_single_point_sorted 2 (fun _ _ => (0 : ℚ))
    (fun _ _ _ => ((0 : ℚ), (0 : ℚ))) (fun _ _ => le_refl 0)

end Elphmod

namespace Elphmod

/-- C10: slot matching picks each candidate independently, so the returned
order need not be a permutation: with two path points whose second point has
two identical eigenvector columns, both slots match band 0 and the returned
row at point 1 holds the same band index twice. -/
theorem band_order_not_permutation :
    band_order (fun _ i => (i : ℚ))
        (fun n c j => if n = 0 then (if c = j then ((1 : ℚ), (0 : ℚ)) else (0, 0))
          else (if c = 0 then ((1 : ℚ), (0 : ℚ)) else (0, 0)))
        2 2 true = [[0, 1], [0, 0]]
    ∧ ¬ List.Nodup ((band_order (fun _ i => (i : ℚ))
        (fun n c j => if n = 0 then (if c = j then ((1 : ℚ), (0 : ℚ)) else (0, 0))
          else (if c = 0 then ((1 : ℚ), (0 : ℚ)) else (0, 0)))
        2 2 true).getD 1 []) := by
  have h : band_order (fun _ i => (i : ℚ))
      (fun n c j => if n = 0 then (if c = j then ((1 : ℚ), (0 : ℚ)) else (0, 0))
        else (if c = 0 then ((1 : ℚ), (0 : ℚ)) else (0, 0)))
      2 2 true = [[0, 1], [0, 0]] := by
    norm_num [band_order, bandOrderRows, argmaxKey, overlap, gapCondB,
      cmul, conj, normSq, Finset.sum_range_succ, Finset.sum_range_zero,
      List.insertionSort, List.orderedInsert, List.getD, range_two]
  exact ⟨h, by rw [h]; decide⟩

end Elphmod

namespace Elphmod

/-- C1: the work distributor returns a length-`w` sizes array with
`sizes[i] = n / w` plus one extra unit for the first `n % w` workers, the
entries sum to `n`, and `distribute 10 3 = [4, 3, 3]`,
`distribute 9 3 = [3, 3, 3]`. -/
theorem distribute_spec (n w i : ℕ) (hw : 1 ≤ w) (hi : i < w) :
    (distribute n w).length = w
  ∧ (distribute n w).getD i 0 = n / w + (if i < n % w then 1 else 0)
  ∧ (distribute n w).sum = n
  ∧ distribute 10 3 = [4, 3, 3]
  ∧ distribute 9 3 = [3, 3, 3] := by
  refine ⟨distribute_length n w, distribute_getD n w i hi,
    distribute_sum n w hw, ?_, ?_⟩ <;> decide

/-- C1 witness: the distributor evaluated at `n = 10`, `w = 3`, `i = 0`. -/
theorem distribute_spec_witness :
    (distribute 10 3).length = 3
  ∧ (distribute 10 3).getD 0 0 = 10 / 3 + (if 0 < 10 % 3 then 1 else 0)
  ∧ (distribute 10 3).sum = 10
  ∧ distribute 10 3 = [4, 3, 3]
  ∧ distribute 9 3 = [3, 3, 3] :=
  distribute_spec 10 3 0 (by decide) (by decide)

/-- C2: the derived bounds array is the prefix-sum array of the sizes, of
length `w + 1`; consecutive bounds differ by the worker's size, the last
bound is `n`, and the q range iterated by worker `r` of the phonon
self-energy evaluator (and hence its local block `my_Pi`) is exactly the
half-open range from `bounds[r]` to `bounds[r + 1]`. -/
theorem distribute_bounds_spec (n w r nb : ℕ) (entry : ℕ → ℕ → ℚ × ℚ)
    (hw : 1 ≤ w) (hr : r < w) :
    (distributeBounds n w).length = w + 1
  ∧ (distributeBounds n w).getD r 0 = ((distribute n w).take r).sum
  ∧ (distributeBounds n w).getD (r + 1) 0
      = (distributeBounds n w).getD r 0 + (distribute n w).getD r 0
  ∧ (distributeBounds n w).getD w 0 = n
  ∧ workerQRange n w r
      = List.range' ((distributeBounds n w).getD r 0) ((distribute n w).getD r 0)
  ∧ my_Pi n nb w r entry
      = (List.range' ((distributeBounds n w).getD r 0)
          ((distribute n w).getD r 0)).flatMap
          fun iq => (List.range nb).map fun nu => entry iq nu := by
  refine ⟨by simp [distributeBounds], distributeBounds_getD n w r hr.le,
    distributeBounds_step n w r hr, ?_, workerQRange_eq n w r hr, ?_⟩
  · rw [distributeBounds_getD n w w le_rfl]
    rw [List.take_of_length_le (by rw [distribute_length])]
    exact distribute_sum n w hw
  · rw [my_Pi, workerQRange_eq n w r hr]

/-- C2 witness: the bounds of `distribute 10 3` at worker `r = 1`. -/
theorem distribute_bounds_spec_witness :
    (distributeBounds 10 3).length = 3 + 1
  ∧ (distributeBounds 10 3).getD 1 0 = ((distribute 10 3).take 1).sum
  ∧ (distributeBounds 10 3).getD (1 + 1) 0
      = (distributeBounds 10 3).getD 1 0 + (distribute 10 3).getD 1 0
  ∧ (distributeBounds 10 3).getD 3 0 = 10
  ∧ workerQRange 10 3 1
      = List.range' ((distributeBounds 10 3).getD 1 0) ((distribute 10 3).getD 1 0)
  ∧ my_Pi 10 2 3 1 (fun _ _ => ((0 : ℚ), (0 : ℚ)))
      = (List.range' ((distributeBounds 10 3).getD 1 0)
          ((distribute 10 3).getD 1 0)).flatMap
          fun iq => (List.range 2).map fun nu => (fun _ _ => ((0 : ℚ), (0 : ℚ))) iq nu :=
  distribute_bounds_spec 10 3 1 2 (fun _ _ => ((0 : ℚ), (0 : ℚ)))
    (by decide) (by decide)

end Elphmod

namespace Elphmod

/-- C3: `phonon_self_energy` partitions the q points (and with them the
joint (q, band) index space, in contiguous per-worker blocks) via the work
distributor, each worker computes its entries from the inputs alone, and the
variable-size all-gather leaves every worker with the complete self-energy
array ordered by (q-point, band): the gathered list equals the sequential
(q, band)-ordered list, whose flat position `iq * nb + nu` holds the entry
for q point `iq` and band `nu`. -/
theorem phonon_self_energy_allgather (nk : ℕ) (e : ℕ → ℕ → ℚ)
    (g2 : ℕ → ℕ → ℕ → ℕ → ℚ) (T η : ℚ) (occ : Occupations) (q : ℕ → ℚ × ℚ)
    (nQ nb nprocs iq nu : ℕ) (hP : 1 ≤ nprocs) (hiq : iq < nQ) (hnu : nu < nb) :
    phonon_self_energy nk e g2 T η occ q nQ nb nprocs
        = phonon_self_energy_seq nQ nb (phonon_self_energy_entry nk e g2 T η occ q)
  ∧ (phonon_self_energy nk e g2 T η occ q nQ nb nprocs)[iq * nb + nu]?
        = some (phonon_self_energy_entry nk e g2 T η occ q iq nu) := by
  have h := gathered_eq_seq nQ nb nprocs (phonon_self_energy_entry nk e g2 T η occ q) hP
  refine ⟨h, ?_⟩
  rw [phonon_self_energy, h]
  exact seq_getElem? nQ nb _ iq nu hiq hnu

/-- C3 witness: two q points, one band, two workers, on a 1×1 mesh. -/
theorem phonon_self_energy_allgather_witness :
    phonon_self_energy 1 (fun _ _ => 0) (fun _ _ _ _ => 1) 1 0
        ⟨fun x => x, fun x => x⟩ (fun _ => (0, 0)) 2 1 2
        = phonon_self_energy_seq 2 1
            (phonon_self_energy_entry 1 (fun _ _ => 0) (fun _ _ _ _ => 1) 1 0
              ⟨fun x => x, fun x => x⟩ (fun _ => (0, 0)))
  ∧ (phonon_self_energy 1 (fun _ _ => 0) (fun _ _ _ _ => 1) 1 0
        ⟨fun x => x, fun x => x⟩ (fun _ => (0, 0)) 2 1 2)[1 * 1 + 0]?
        = some (phonon_self_energy_entry 1 (fun _ _ => 0) (fun _ _ _ _ => 1) 1 0
            ⟨fun x => x, fun x => x⟩ (fun _ => (0, 0)) 1 0) :=
  phonon_self_energy_allgather 1 (fun _ _ => 0) (fun _ _ _ _ => 1) 1 0
    ⟨fun x => x, fun x => x⟩ (fun _ => (0, 0)) 2 1 2 1 0
    (by decide) (by decide) (by decide)

/-- C4: for fixed q points, dispersion, coupling, temperature, broadening
and occupation model, the gathered `phonon_self_energy` array is the same
for any two positive worker counts. -/
theorem phonon_self_energy_partition_invariant (nk : ℕ) (e : ℕ → ℕ → ℚ)
    (g2 : ℕ → ℕ → ℕ → ℕ → ℚ) (T η : ℚ) (occ : Occupations) (q : ℕ → ℚ × ℚ)
    (nQ nb P1 P2 : ℕ) (h1 : 1 ≤ P1) (h2 : 1 ≤ P2) :
    phonon_self_energy nk e g2 T η occ q nQ nb P1
      = phonon_self_energy nk e g2 T η occ q nQ nb P2 :=
  (gathered_eq_seq nQ nb P1 _ h1).trans (gathered_eq_seq nQ nb P2 _ h2).symm

/-- C4 witness: three q points computed by 2 workers and by 1 worker agree. -/
theorem phonon_self_energy_partition_invariant_witness :
    phonon_self_energy 2 (fun _ _ => 1) (fun _ _ _ _ => 1) 100 1
        ⟨fun x => x, fun x => x⟩ (fun iq => ((iq : ℚ) / 2, 0)) 3 2 2
      = phonon_self_energy 2 (fun _ _ => 1) (fun _ _ _ _ => 1) 100 1
          ⟨fun x => x, fun x => x⟩ (fun iq => ((iq : ℚ) / 2, 0)) 3 2 1 :=
  phonon_self_energy_partition_invariant 2 (fun _ _ => 1) (fun _ _ _ _ => 1)
    100 1 ⟨fun x => x, fun x => x⟩ (fun iq => ((iq : ℚ) / 2, 0)) 3 2 2 1
    (by decide) (by decide)

end Elphmod

namespace Elphmod

lemma qIndex_zero (nk : ℕ) : qIndex nk 0 = 0 := by
  unfold qIndex pythonRound
  norm_num

/-- C5: at q = (0, 0) the susceptibility closure takes the closed-form
delta-limit branch: it returns exactly `-(2/nk²)` times the mesh sum of the
occupation model's delta function of the scaled energies divided by `kT`
(the delta function in energy units), for every `eta`, and two closures that
differ only in `eta` agree there. -/
theorem susceptibility_gamma (nk : ℕ) (e : ℕ → ℕ → ℚ) (T η η' : ℚ)
    (occ : Occupations) :
    susceptibility nk e T η occ 0 0
        = -(2 / (nk : ℚ) ^ 2) * ((∑ k1 ∈ Finset.range nk, ∑ k2 ∈ Finset.range nk,
            occ.delta (e k1 k2 / (kB * T))) / (kB * T))
  ∧ susceptibility nk e T η occ 0 0 = susceptibility nk e T η' occ 0 0 := by
  constructor
  · simp [susceptibility, qIndex_zero]
  · simp [susceptibility, qIndex_zero]

/-- C8: at expansion order `N = 0` the Methfessel-Paxton routine returns the
Gaussian base case unchanged: the step function is `0.5 * (1 - erf x)` and
the delta function is `exp(-x²)/√π`. -/
theorem methfessel_paxton_order_zero (erf : ℝ → ℝ) (x : ℝ) :
    methfessel_paxton_general erf x 0 = (gauss erf x, gauss_delta x)
  ∧ methfessel_paxton_general erf x 0
      = (0.5 * (1 - erf x), Real.exp (-x * x) / Real.sqrt Real.pi) := by
  constructor
  · rfl
  · rfl

end Elphmod

namespace Elphmod

lemma info_getLast_exit (rank : ℕ) (msg : String) :
    (info rank msg true).getLast? = some Event.exit := by
  unfold info
  rcases Nat.eq_zero_or_pos rank with h | h
  · simp [h]
  · rw [if_neg (by omega)]
    simp

/-- C9: `info(message, error=True)` synchronizes at a barrier first, only the
leader prints (the message prefixed by the error marker), and every rank's
trace ends in termination; with `error=False` no rank terminates; and a
misconfiguration detected in the MD driver's initialization ends every
rank's trace in termination. -/
theorem info_error_protocol (rank : ℕ) (msg : String) (ryd dm pdm : Bool)
    (hmis : ryd = false ∨ dm = true ∨ pdm = true) :
    (info rank msg true).head? = some Event.barrier
  ∧ outputs (info rank msg true) = (if rank = 0 then ["Error: ", msg] else [])
  ∧ (info rank msg true).getLast? = some Event.exit
  ∧ Event.exit ∉ info rank msg false
  ∧ (driverInitEvents ryd dm pdm rank).getLast? = some Event.exit := by
  refine ⟨by simp [info], ?_, info_getLast_exit rank msg, ?_, ?_⟩
  · rcases Nat.eq_zero_or_pos rank with h | h
    · simp [info, h, outputs]
    · rw [if_neg (by omega)]
      simp [info, outputs, Nat.pos_iff_ne_zero.mp h]
  · rcases Nat.eq_zero_or_pos rank with h | h
    · simp [info, h, outputs]
    · simp [info, Nat.pos_iff_ne_zero.mp h]
  · unfold driverInitEvents
    by_cases h : ryd = true
    · rw [h]
      have hdp : dm = true ∨ pdm = true := by
        rcases hmis with h' | h' | h'
        · rw [h'] at h; exact absurd h (by simp)
        · exact Or.inl h'
        · exact Or.inr h'
      rcases hdp with h' | h' <;> rw [h'] <;> simp [info_getLast_exit]
    · have h0 : ryd = false := by revert h; cases ryd <;> simp
      rw [h0]
      simp [info_getLast_exit]

/-- C9 witness: a non-leader rank with the `rydberg` flag unset. -/
theorem info_error_protocol_witness :
    (info 1 "m" true).head? = some Event.barrier
  ∧ outputs (info 1 "m" true) = (if 1 = 0 then ["Error: ", "m"] else [])
  ∧ (info 1 "m" true).getLast? = some Event.exit
  ∧ Event.exit ∉ info 1 "m" false
  ∧ (driverInitEvents false false false 1).getLast? = some Event.exit :=
  info_error_protocol 1 "m" false false false (Or.inl rfl)

end Elphmod
